import Mathlib

/-!
Shallow embedding of the ion shell command-language front end:
the pipeline/job model and glob-expansion pass of `src/parser/peg.rs`, and
the selector engine of `src/parser/shell_expand/words/methods/mod.rs`.
External collaborators (the `glob` crate, the peg-generated grammar, the
range-literal parser) are abstracted as explicit parameters; repository
modules not present in the excerpt (`flow_control`, `Index`/`Range`
resolution) are modelled from the spec, as marked in their doc comments.
-/

namespace Ion

/-- `JobKind` from `peg.rs`: the sequencing relation of a job to its
successor. -/
inductive JobKind where
  | And
  | Background
  | Or
  | Pipe
deriving DecidableEq

/-- `Redirection` from `peg.rs`: a file target with truncate/append mode. -/
structure Redirection where
  file : String
  append : Bool
deriving DecidableEq

/-- `Job` from `peg.rs`: one external-process invocation. -/
structure Job where
  command : String
  args : List String
  kind : JobKind
deriving DecidableEq

/-- `Job::new` from `peg.rs`. The source reads `args[0]`, which panics when
`args` is empty; the panic is modelled by `Option.none`. -/
def Job.new (args : List String) (kind : JobKind) : Option Job :=
  match args with
  | [] => Option.none
  | command :: rest => some { command := command, args := command :: rest, kind := kind }

/-- `Pipeline` from `peg.rs`: jobs plus optional stdin/stdout redirections. -/
structure Pipeline where
  jobs : List Job
  stdout : Option Redirection
  stdin : Option Redirection
deriving DecidableEq

/-- `Pipeline::new` from `peg.rs`. -/
def Pipeline.new (jobs : List Job) (stdin : Option Redirection)
    (stdout : Option Redirection) : Pipeline :=
  { jobs := jobs, stdin := stdin, stdout := stdout }

/-- Glob oracle abstracting the external `glob` crate used by
`Job::expand_globs`. The outer `Option.none` models `glob(&arg)` returning a
pattern error, so that `if let Ok(expanded) = glob(&arg)` takes no branch; an
inner entry `Option.none` models a per-path filesystem error, skipped by
`filter_map(Result::ok)`. -/
def GlobFn : Type := String → Option (List (Option String))

/-- The metacharacter test from `Job::expand_globs` in `peg.rs`:
`arg.contains(|chr| chr == '?' || chr == '*' || chr == '[')`. -/
def containsGlobChar (s : String) : Bool :=
  s.toList.any fun chr => chr == '?' || chr == '*' || chr == '['

/-- One iteration of the `for arg in self.args.drain(..)` loop body of
`Job::expand_globs`: the arguments pushed onto `new_args` for `arg`. The
matched paths are pushed when the metacharacter test succeeds, the glob call
succeeds and at least one path is ok (`pushed_glob`); otherwise the literal
argument is pushed. -/
def expandGlobsArg (g : GlobFn) (arg : String) : List String :=
  if containsGlobChar arg then
    match g arg with
    | some expanded =>
        let pushed := expanded.filterMap id
        if pushed.isEmpty then [arg] else pushed
    | Option.none => [arg]
  else [arg]

/-- The full loop of `Job::expand_globs` over the drained `args`, appending
each iteration's pushes in order. -/
def expandGlobsArgs (g : GlobFn) : List String → List String
  | [] => []
  | arg :: rest => expandGlobsArg g arg ++ expandGlobsArgs g rest

/-- `Job::expand_globs` from `peg.rs`: replaces `args` by the expanded list;
`command` and `kind` are untouched. -/
def Job.expand_globs (g : GlobFn) (j : Job) : Job :=
  { j with args := expandGlobsArgs g j.args }

/-- `Pipeline::expand_globs` from `peg.rs`: expands every job in place. -/
def Pipeline.expand_globs (g : GlobFn) (p : Pipeline) : Pipeline :=
  { p with jobs := p.jobs.map (Job.expand_globs g) }

/-- `Comparitor` from `flow_control`. Modelled from the spec: the defining
module is not in the excerpt; the spec lists these six comparator
alternatives of an `If` statement. -/
inductive Comparitor where
  | Equal
  | NotEqual
  | GreaterThan
  | LessThan
  | GreaterThanOrEqual
  | LessThanOrEqual
deriving DecidableEq

/-- `Statement` from `flow_control`. Modelled from the spec: the defining
module is not in the excerpt; the spec lists these five statement forms
produced by the parser. -/
inductive Statement where
  | Pipelines (pipelines : List Pipeline)
  | If (left : String) (comparitor : Comparitor) (right : String)
  | Else
  | End
  | Function (name : String) (args : List String)
deriving DecidableEq

/-- Grammar oracle abstracting the peg-generated `parse_` from
`grammar.rustpeg` (the grammar file is not in the excerpt): any grammar
parse returning either a statement or a syntax-error message. -/
def Grammar : Type := String → Except String Statement

/-- `parse` from `peg.rs`. The second component is the diagnostic the source
prints on the error branch (the `println!` of `ion: Syntax ` followed by the
error), `Option.none` when no diagnostic is emitted. -/
def parse (grammar : Grammar) (code : String) : Statement × Option String :=
  match grammar code with
  | Except.ok code_ok => (code_ok, Option.none)
  | Except.error err => (Statement.Pipelines [], some ("ion: Syntax " ++ err))

/-- `Key` from `methods/mod.rs`: wraps an opaque text key. -/
structure Key where
  key : String
deriving DecidableEq

/-- `Key::get` from `methods/mod.rs`. -/
def Key.get (k : Key) : String := k.key

/-- `Index` from `shell_expand/words`. Modelled from the spec: the defining
module is not in the excerpt; the spec says `Index` wraps a signed
integer. -/
structure Index where
  val : Int
deriving DecidableEq

/-- `Index::new` wrapping a signed integer. Modelled from the spec. -/
def Index.new (val : Int) : Index := { val := val }

/-- `Index::resolve` against a size. Modelled from the spec: the defining
module is not in the excerpt; a non-negative value is a direct zero-based
position, valid below the size; a negative value counts from the end, at
effective position `size + i`, valid when that is non-negative; out-of-range
resolution fails and degrades to an empty selection. -/
def Index.resolve (idx : Index) (size : Nat) : Option Nat :=
  if 0 ≤ idx.val then
    if idx.val < (size : Int) then some idx.val.toNat else Option.none
  else
    if 0 ≤ (size : Int) + idx.val then some ((size : Int) + idx.val).toNat
    else Option.none

/-- `Range` from `shell_expand/words`. Modelled from the spec: the defining
module is not in the excerpt; the spec specifies only its resolution
behaviour, so the resolver is kept abstract: `bounds` resolves against a
size to an optional `(start, length)` half-open window, and resolution
failure (out of bounds, malformed bounds) yields `Option.none` rather than a
window reaching past the sequence, which is recorded as the invariant
`bounds_le`. -/
structure Range where
  bounds : Nat → Option (Nat × Nat)
  bounds_le : ∀ size start length, bounds size = some (start, length) →
    start + length ≤ size

/-- `Select` from `methods/mod.rs`: a filter on a vector-like object. -/
inductive Select where
  | None
  | All
  | Index (idx : Ion.Index)
  | Range (range : Ion.Range)
  | Key (key : Ion.Key)

/-- `SelectWithSize::select` from `methods/mod.rs`, with the iterator taken
to be a list of items and the output collected into a list: `None` and
`Key` collect the empty iterator, `All` collects everything, `Index`
resolves against the size and takes the nth element, and `Range` resolves
`bounds` and collects `skip(start).take(length)`. -/
def SelectWithSize.select {α : Type} (l : List α) (s : Select) (size : Nat) :
    List α :=
  match s with
  | Select.None => []
  | Select.All => l
  | Select.Index idx =>
      match idx.resolve size with
      | some n => (l[n]?).toList
      | Option.none => []
  | Select.Range range =>
      match range.bounds size with
      | some (start, length) => (l.drop start).take length
      | Option.none => []
  | Select.Key _ => []

/-- Decimal value of a list of digit characters, most significant first. -/
def digitsVal (cs : List Char) : Nat :=
  cs.foldl (fun acc c => acc * 10 + (c.toNat - 48)) 0

/-- Rust `str::parse::<isize>` as invoked by `Select::from_str`, for 64-bit
`isize`: an optional single leading sign, then one or more ASCII digits,
with the resulting value required to fit in `[-(2 ^ 63), 2 ^ 63 - 1]`. -/
def parse_isize (s : String) : Option Int :=
  match s.toList with
  | '+' :: rest =>
      if !rest.isEmpty && rest.all Char.isDigit then
        if (digitsVal rest : Int) ≤ 2 ^ 63 - 1 then some (digitsVal rest)
        else Option.none
      else Option.none
  | '-' :: rest =>
      if !rest.isEmpty && rest.all Char.isDigit then
        if (digitsVal rest : Int) ≤ 2 ^ 63 then some (-(digitsVal rest : Int))
        else Option.none
      else Option.none
  | cs =>
      if !cs.isEmpty && cs.all Char.isDigit then
        if (digitsVal cs : Int) ≤ 2 ^ 63 - 1 then some (digitsVal cs)
        else Option.none
      else Option.none

/-- Oracle abstracting `parse_index_range` from `shell_expand/ranges` (not in
the excerpt). Modelled from the spec: a range-literal syntax parser providing
`Range` construction from text, which may accept or reject any given text. -/
def RangeLiteral : Type := String → Option Ion.Range

/-- `Select::from_str` from `methods/mod.rs`, parameterised by the
`parse_index_range` collaborator. The source returns `Ok` on every path, so
the embedding returns `Select` directly. -/
def Select.from_str (pir : RangeLiteral) (data : String) : Select :=
  if ".." == data then Select.All
  else
    match parse_isize data with
    | some index => Select.Index (Index.new index)
    | Option.none =>
        match pir data with
        | some range => Select.Range range
        | Option.none => Select.Key { key := data }

/-- A concrete resolvable `Range`: the window of the first two elements of
any sequence with at least two elements. -/
def rangeFirstTwo : Ion.Range :=
  { bounds := fun size => if 2 ≤ size then some (0, 2) else Option.none,
    bounds_le := by
      intro size start length h
      by_cases h2 : 2 ≤ size
      · simp [h2] at h
        omega
      · simp [h2] at h }

/-- A concrete `Range` with an empty window at position 1. -/
def rangeEmptyAt1 : Ion.Range :=
  { bounds := fun size => if 1 ≤ size then some (1, 0) else Option.none,
    bounds_le := by
      intro size start length h
      by_cases h1 : 1 ≤ size
      · simp [h1] at h
        omega
      · simp [h1] at h }

/-- A concrete `Range` that never resolves. -/
def rangeNever : Ion.Range :=
  { bounds := fun _ => Option.none,
    bounds_le := by intro size start length h; exact Option.noConfusion h }

/-- A concrete glob oracle: the pattern `*` matches the single file
`a.txt`; every other pattern yields a pattern error. -/
def globStar : GlobFn :=
  fun pat => if pat = "*" then some [some "a.txt"] else Option.none

/-- A concrete glob oracle for a directory holding the two files `a?` and
`ab`: the pattern `*` matches both, and the pattern `a?` (the first file's
literal name, which is itself a pattern) also matches both. -/
def globDirAQ : GlobFn :=
  fun pat =>
    if pat = "*" then some [some "a?", some "ab"]
    else if pat = "a?" then some [some "a?", some "ab"]
    else Option.none

/-- A concrete job whose second argument is the pattern `*`. -/
def jobLsStar : Job :=
  { command := "ls", args := ["ls", "*"], kind := JobKind.Pipe }

end Ion

namespace Ion

/-- Helper: an argument with no metacharacter is kept literally. -/
theorem expandGlobsArg_no_meta (g : GlobFn) (arg : String)
    (h : containsGlobChar arg = false) : expandGlobsArg g arg = [arg] := by
  unfold expandGlobsArg
  simp [h]

/-- Helper: every argument contributes at least one output argument. -/
theorem expandGlobsArg_ne_nil (g : GlobFn) (arg : String) :
    expandGlobsArg g arg ≠ [] := by
  unfold expandGlobsArg
  by_cases hm : containsGlobChar arg
  · simp only [hm, if_true]
    cases hg : g arg with
    | none => simp
    | some expanded =>
        simp only []
        by_cases he : (expanded.filterMap id).isEmpty
        · simp [he]
        · simp only [he, Bool.false_eq_true, if_false]
          intro hcon
          rw [hcon] at he
          exact he rfl
  · simp [hm]

/-- Helper: the expansion loop is the concatenation of the per-argument
expansions, in order. -/
theorem expandGlobsArgs_eq_flatMap (g : GlobFn) (args : List String) :
    expandGlobsArgs g args = args.flatMap (expandGlobsArg g) := by
  induction args with
  | nil => rfl
  | cons a rest ih => simp [expandGlobsArgs, ih]

/-- Claim C8: for every non-empty argument list and every kind, `Job::new`
succeeds and yields a job whose `command` is a copy of the first argument,
whose `args` is exactly the given list, and whose `kind` is the given
kind. -/
theorem job_new_spec (args : List String) (kind : JobKind) (h : args ≠ []) :
    ∃ j, Job.new args kind = some j ∧ j.command = args.head h ∧
      j.args = args ∧ j.kind = kind := by
  cases args with
  | nil => exact absurd rfl h
  | cons c rest => exact ⟨⟨c, c :: rest, kind⟩, rfl, rfl, rfl, rfl⟩

/-- Witness for C8 at the spec's concrete example. -/
theorem job_new_spec_witness :
    ∃ j, Job.new ["echo", "hi"] JobKind.Pipe = some j ∧ j.command = "echo" ∧
      j.args = ["echo", "hi"] ∧ j.kind = JobKind.Pipe :=
  job_new_spec ["echo", "hi"] JobKind.Pipe (by decide)

/-- Claim C9: selecting with `None` yields the empty result, selecting with
`All` yields every item in original order, and selecting with `Key` yields
the empty result against a plain positional sequence. -/
theorem select_none_all_key {α : Type} (l : List α) (size : Nat) (k : Key) :
    SelectWithSize.select l Select.None size = []
  ∧ SelectWithSize.select l Select.All size = l
  ∧ SelectWithSize.select l (Select.Key k) size = [] :=
  ⟨rfl, rfl, rfl⟩

/-- Claim C5: `parse` never fails observably: whenever the grammar parse
reports a syntax error, `parse` emits the syntax diagnostic and returns
`Pipelines` of the empty sequence. -/
theorem parse_total_on_error (grammar : Grammar) (code err : String)
    (h : grammar code = Except.error err) :
    parse grammar code =
      (Statement.Pipelines [], some ("ion: Syntax " ++ err)) := by
  unfold parse
  rw [h]

/-- Witness for C5 at a concrete always-failing grammar. -/
theorem parse_total_on_error_witness :
    parse (fun _ => Except.error "error") "if" =
      (Statement.Pipelines [], some "ion: Syntax error") :=
  parse_total_on_error (fun _ => Except.error "error") "if" "error" rfl

/-- Claim C1: parsing a `Select` from text is total and follows the fixed
precedence: `All` when the text is exactly `..`, `Index` when the text
parses as a signed integer, `Range` when the range-literal parser accepts
the text, and otherwise `Key` wrapping the literal text; `Select::None` is
never returned for any input. -/
theorem select_from_str_spec (pir : RangeLiteral) (data : String) :
    (data = ".." → Select.from_str pir data = Select.All)
  ∧ (∀ i, parse_isize data = some i →
        Select.from_str pir data = Select.Index (Index.new i))
  ∧ (∀ range, data ≠ ".." → parse_isize data = Option.none →
        pir data = some range →
        Select.from_str pir data = Select.Range range)
  ∧ (data ≠ ".." → parse_isize data = Option.none → pir data = Option.none →
        Select.from_str pir data = Select.Key { key := data })
  ∧ Select.from_str pir data ≠ Select.None := by
  refine ⟨?_, ?_, ?_, ?_, ?_⟩
  · intro h
    subst h
    rfl
  · intro i hi
    unfold Select.from_str
    by_cases hd : (".." == data) = true
    · exfalso
      have hdd : data = ".." := (eq_of_beq hd).symm
      subst hdd
      rw [show parse_isize ".." = Option.none from by decide] at hi
      exact Option.noConfusion hi
    · simp [hd, hi, Index.new]
  · intro range hne hp hr
    have hd : ¬ ((".." == data) = true) := fun hbe => hne (eq_of_beq hbe).symm
    unfold Select.from_str
    simp [hd, hp, hr]
  · intro hne hp hr
    have hd : ¬ ((".." == data) = true) := fun hbe => hne (eq_of_beq hbe).symm
    unfold Select.from_str
    simp [hd, hp, hr]
  · unfold Select.from_str
    by_cases hd : (".." == data) = true
    · simp only [hd, if_true]
      exact fun hcon => Select.noConfusion hcon
    · cases hp : parse_isize data with
      | some i =>
          simp only [hd, hp, if_false, Bool.false_eq_true]
          exact fun hcon => Select.noConfusion hcon
      | none =>
          cases hr : pir data with
          | some range =>
              simp only [hd, hp, if_false, Bool.false_eq_true]
              exact fun hcon => Select.noConfusion hcon
          | none =>
              simp only [hd, hp, if_false, Bool.false_eq_true]
              exact fun hcon => Select.noConfusion hcon

/-- Witness for C1 at concrete inputs exercising every precedence branch. -/
theorem select_from_str_spec_witness :
    Select.from_str (fun _ => Option.none) ".." = Select.All
  ∧ Select.from_str (fun _ => Option.none) "3" = Select.Index (Index.new 3)
  ∧ Select.from_str (fun _ => Option.none) "-1" =
      Select.Index (Index.new (-1))
  ∧ Select.from_str (fun _ => some rangeFirstTwo) "0..2" =
      Select.Range rangeFirstTwo
  ∧ Select.from_str (fun _ => Option.none) "abc" = Select.Key { key := "abc" }
  ∧ Select.from_str (fun _ => Option.none) "abc" ≠ Select.None :=
  ⟨(select_from_str_spec _ "..").1 rfl,
   (select_from_str_spec _ "3").2.1 3 (by decide),
   (select_from_str_spec _ "-1").2.1 (-1) (by decide),
   (select_from_str_spec _ "0..2").2.2.1 rangeFirstTwo (by decide) (by decide)
     rfl,
   (select_from_str_spec _ "abc").2.2.2.1 (by decide) (by decide) rfl,
   (select_from_str_spec _ "abc").2.2.2.2⟩

/-- Claim C2: index selection against a sequence of length `N`: a
non-negative index `i` yields the single element at position `i` when
`i < N` and the empty result when `i ≥ N`; a negative index yields the
single element at position `N + i` when `N + i ≥ 0` and the empty result
otherwise. -/
theorem select_index_spec {α : Type} (l : List α) (i : Int) :
    (0 ≤ i → i < (l.length : Int) →
        SelectWithSize.select l (Select.Index (Index.new i)) l.length
            = (l[i.toNat]?).toList
      ∧ (l[i.toNat]?).isSome = true)
  ∧ (0 ≤ i → (l.length : Int) ≤ i →
        SelectWithSize.select l (Select.Index (Index.new i)) l.length = [])
  ∧ (i < 0 → 0 ≤ (l.length : Int) + i →
        SelectWithSize.select l (Select.Index (Index.new i)) l.length
            = (l[((l.length : Int) + i).toNat]?).toList
      ∧ (l[((l.length : Int) + i).toNat]?).isSome = true)
  ∧ (i < 0 → (l.length : Int) + i < 0 →
        SelectWithSize.select l (Select.Index (Index.new i)) l.length = []) := by
  refine ⟨?_, ?_, ?_, ?_⟩
  · intro h0 hlt
    constructor
    · simp [SelectWithSize.select, Index.resolve, Index.new, h0, hlt]
    · have hb : i.toNat < l.length := by omega
      simp [List.getElem?_eq_getElem hb]
  · intro h0 hge
    have hnlt : ¬ (i < (l.length : Int)) := not_lt.mpr hge
    simp [SelectWithSize.select, Index.resolve, Index.new, h0, hnlt]
  · intro hneg h0
    have hn : ¬ (0 ≤ i) := not_le.mpr hneg
    constructor
    · simp [SelectWithSize.select, Index.resolve, Index.new, hn, h0]
    · have hb : ((l.length : Int) + i).toNat < l.length := by omega
      simp [List.getElem?_eq_getElem hb]
  · intro hneg hlt
    have hn : ¬ (0 ≤ i) := not_le.mpr hneg
    have hn2 : ¬ (0 ≤ (l.length : Int) + i) := not_le.mpr hlt
    simp [SelectWithSize.select, Index.resolve, Index.new, hn, hn2]

/-- Witness for C2 on the concrete sequence `[10, 20, 30]`. -/
theorem select_index_spec_witness :
    SelectWithSize.select [10, 20, 30] (Select.Index (Index.new 1)) 3 = [20]
  ∧ SelectWithSize.select [10, 20, 30] (Select.Index (Index.new 3)) 3 = []
  ∧ SelectWithSize.select [10, 20, 30] (Select.Index (Index.new (-1))) 3
      = [30]
  ∧ SelectWithSize.select [10, 20, 30] (Select.Index (Index.new (-4))) 3
      = [] := by
  refine ⟨?_, ?_, ?_, ?_⟩
  · have h := ((select_index_spec [10, 20, 30] 1).1 (by decide) (by decide)).1
    exact h.trans (by decide)
  · exact (select_index_spec [10, 20, 30] 3).2.1 (by decide) (by decide)
  · have h :=
      ((select_index_spec [10, 20, 30] (-1)).2.2.1 (by decide) (by decide)).1
    exact h.trans (by decide)
  · exact (select_index_spec [10, 20, 30] (-4)).2.2.2 (by decide) (by decide)

/-- Claim C3: range selection against a sequence of length `N`: a range
resolving to `(start, length)` has `start + length ≤ N` and yields exactly
the contiguous run of `length` items starting at `start`, in original
order; an empty window or an unresolvable range yields the empty result. -/
theorem select_range_spec {α : Type} (l : List α) (range : Ion.Range) :
    (∀ start length, range.bounds l.length = some (start, length) →
        start + length ≤ l.length
      ∧ SelectWithSize.select l (Select.Range range) l.length
          = (l.drop start).take length
      ∧ ((l.drop start).take length).length = length)
  ∧ (∀ start, range.bounds l.length = some (start, 0) →
        SelectWithSize.select l (Select.Range range) l.length = [])
  ∧ (range.bounds l.length = Option.none →
        SelectWithSize.select l (Select.Range range) l.length = []) := by
  refine ⟨?_, ?_, ?_⟩
  · intro start length h
    have hle := range.bounds_le l.length start length h
    refine ⟨hle, ?_, ?_⟩
    · simp [SelectWithSize.select, h]
    · simp only [List.length_take, List.length_drop]
      omega
  · intro start h
    simp [SelectWithSize.select, h]
  · intro h
    simp [SelectWithSize.select, h]

/-- Witness for C3 on the concrete sequence `[10, 20, 30]`. -/
theorem select_range_spec_witness :
    SelectWithSize.select [10, 20, 30] (Select.Range rangeFirstTwo) 3
      = [10, 20]
  ∧ SelectWithSize.select [10, 20, 30] (Select.Range rangeEmptyAt1) 3 = []
  ∧ SelectWithSize.select [10, 20, 30] (Select.Range rangeNever) 3 = [] := by
  refine ⟨?_, ?_, ?_⟩
  · have h :=
      ((select_range_spec [10, 20, 30] rangeFirstTwo).1 0 2 (by decide)).2.1
    exact h.trans (by decide)
  · exact (select_range_spec [10, 20, 30] rangeEmptyAt1).2.1 1 (by decide)
  · exact (select_range_spec [10, 20, 30] rangeNever).2.2 (by decide)

/-- Claim C4: `Job::expand_globs` processes each argument independently and
in order: the result is the in-order concatenation of the per-argument
expansions; an argument containing a metacharacter whose glob yields one or
more matches is replaced by those matches in match order; zero matches or a
pattern/filesystem error keeps the literal argument; an argument without
metacharacters is kept; and no argument is ever silently dropped. -/
theorem expand_globs_spec (g : GlobFn) (j : Job) :
    (Job.expand_globs g j).args = j.args.flatMap (expandGlobsArg g)
  ∧ (∀ arg paths, containsGlobChar arg = true → g arg = some paths →
        paths.filterMap id ≠ [] → expandGlobsArg g arg = paths.filterMap id)
  ∧ (∀ arg paths, containsGlobChar arg = true → g arg = some paths →
        paths.filterMap id = [] → expandGlobsArg g arg = [arg])
  ∧ (∀ arg, containsGlobChar arg = true → g arg = Option.none →
        expandGlobsArg g arg = [arg])
  ∧ (∀ arg, containsGlobChar arg = false → expandGlobsArg g arg = [arg])
  ∧ (∀ arg, expandGlobsArg g arg ≠ []) := by
  refine ⟨expandGlobsArgs_eq_flatMap g j.args, ?_, ?_, ?_, ?_, ?_⟩
  · intro arg paths hm hg hne
    have hemp : paths.filterMap id ≠ [] → (paths.filterMap id).isEmpty = false := by
      intro h
      cases hc : paths.filterMap id with
      | nil => exact absurd hc h
      | cons x xs => rfl
    simp [expandGlobsArg, hm, hg, hemp hne]
  · intro arg paths hm hg he
    simp [expandGlobsArg, hm, hg, he]
  · intro arg hm hg
    simp [expandGlobsArg, hm, hg]
  · intro arg hm
    exact expandGlobsArg_no_meta g arg hm
  · intro arg
    exact expandGlobsArg_ne_nil g arg

/-- Witness for C4 with concrete glob oracles, exercising the match,
zero-match, pattern-error and metacharacter-free branches. -/
theorem expand_globs_spec_witness :
    (Job.expand_globs globStar
        { command := "ls", args := ["ls", "*", "x"],
          kind := JobKind.Pipe }).args = ["ls", "a.txt", "x"]
  ∧ expandGlobsArg globStar "*" = ["a.txt"]
  ∧ expandGlobsArg (fun _ => some [Option.none]) "c*" = ["c*"]
  ∧ expandGlobsArg globStar "b*" = ["b*"]
  ∧ expandGlobsArg globStar "x" = ["x"] := by
  refine ⟨?_, ?_, ?_, ?_, ?_⟩
  · have h := (expand_globs_spec globStar
        ⟨"ls", ["ls", "*", "x"], JobKind.Pipe⟩).1
    exact h.trans (by decide)
  · exact (expand_globs_spec globStar jobLsStar).2.1 "*" [some "a.txt"]
      (by decide) (by decide) (by decide)
  · exact (expand_globs_spec (fun _ => some [Option.none]) jobLsStar).2.2.1
      "c*" [Option.none] (by decide) rfl (by decide)
  · exact (expand_globs_spec globStar jobLsStar).2.2.2.1 "b*"
      (by decide) (by decide)
  · exact (expand_globs_spec globStar jobLsStar).2.2.2.2.1 "x" (by decide)

/-- Claim C10: `expand_globs` preserves non-emptiness of the argument list:
every original argument contributes at least one output argument, so a job
with non-empty `args` still has non-empty `args` after expansion. -/
theorem expand_globs_nonempty (g : GlobFn) (j : Job) (h : j.args ≠ []) :
    (Job.expand_globs g j).args ≠ []
  ∧ (∀ arg, expandGlobsArg g arg ≠ []) := by
  constructor
  · show expandGlobsArgs g j.args ≠ []
    cases harg : j.args with
    | nil => exact absurd harg h
    | cons a rest =>
        show expandGlobsArg g a ++ expandGlobsArgs g rest ≠ []
        intro hcon
        rcases List.append_eq_nil.mp hcon with ⟨h1, _⟩
        exact expandGlobsArg_ne_nil g a h1
  · exact fun arg => expandGlobsArg_ne_nil g arg

/-- Witness for C10 on a concrete job. -/
theorem expand_globs_nonempty_witness :
    (Job.expand_globs globStar jobLsStar).args ≠ [] :=
  (expand_globs_nonempty globStar jobLsStar (by decide)).1

/-- Counterexample to C6 as stated: with the glob oracle `globStar` (a
directory containing only the file `a.txt`), the job built by
`Job::new(["*"], Pipe)` satisfies the invariant, but after `expand_globs`
its first argument is `a.txt` while `command` is still `*`, so the
first-element-equals-command invariant is not preserved by
`expand_globs`. -/
theorem job_invariant_cex :
    Job.new ["*"] JobKind.Pipe
      = some { command := "*", args := ["*"], kind := JobKind.Pipe }
  ∧ (Job.expand_globs globStar
        { command := "*", args := ["*"], kind := JobKind.Pipe }).args
      = ["a.txt"]
  ∧ (Job.expand_globs globStar
        { command := "*", args := ["*"], kind := JobKind.Pipe }).command
      = "*"
  ∧ (Job.expand_globs globStar
        { command := "*", args := ["*"], kind := JobKind.Pipe }).args.head?
      ≠ some (Job.expand_globs globStar
        { command := "*", args := ["*"], kind := JobKind.Pipe }).command := by
  refine ⟨rfl, by decide, rfl, by decide⟩

/-- Amended C6: `Job::new` establishes the invariant that `args` is
non-empty with its first element equal to `command`; `expand_globs` leaves
`command` unchanged and preserves the invariant provided the command
argument contains no glob metacharacter. -/
theorem job_invariant_amended :
    (∀ args kind j, Job.new args kind = some j →
        j.args ≠ [] ∧ j.args.head? = some j.command)
  ∧ (∀ (g : GlobFn) (j : Job), j.args.head? = some j.command →
        containsGlobChar j.command = false →
        (Job.expand_globs g j).command = j.command
      ∧ (Job.expand_globs g j).args.head?
          = some (Job.expand_globs g j).command) := by
  constructor
  · intro args kind j hnew
    cases args with
    | nil => exact Option.noConfusion hnew
    | cons c rest =>
        injection hnew with h
        subst h
        exact ⟨by simp, rfl⟩
  · intro g j hhead hm
    refine ⟨rfl, ?_⟩
    cases harg : j.args with
    | nil =>
        rw [harg] at hhead
        exact Option.noConfusion hhead
    | cons c rest =>
        rw [harg] at hhead
        have hc : c = j.command := by simpa using hhead
        show (expandGlobsArgs g j.args).head? = some j.command
        rw [harg]
        show (expandGlobsArg g c ++ expandGlobsArgs g rest).head?
          = some j.command
        subst hc
        rw [expandGlobsArg_no_meta g j.command hm]
        rfl

/-- Witness for the amended C6 at concrete inputs. -/
theorem job_invariant_amended_witness :
    ({ command := "echo", args := ["echo"], kind := JobKind.Pipe } : Job).args
      ≠ []
  ∧ ({ command := "echo", args := ["echo"], kind := JobKind.Pipe } :
        Job).args.head? = some "echo"
  ∧ (Job.expand_globs globStar jobLsStar).args.head?
      = some (Job.expand_globs globStar jobLsStar).command := by
  have h1 := job_invariant_amended.1 ["echo"] JobKind.Pipe
    { command := "echo", args := ["echo"], kind := JobKind.Pipe } rfl
  have h2 := job_invariant_amended.2 globStar jobLsStar rfl (by decide)
  exact ⟨h1.1, h1.2, h2.2⟩

/-- Counterexample to C7 as stated: with the glob oracle `globDirAQ` (a
directory holding the two files `a?` and `ab`), expanding `["ls", "*"]`
once yields `["ls", "a?", "ab"]`, whose element `a?` still contains a
metacharacter; a second expansion re-expands it, yielding
`["ls", "a?", "ab", "ab"]`. -/
theorem expand_globs_not_idempotent_cex :
    (Job.expand_globs globDirAQ jobLsStar).args = ["ls", "a?", "ab"]
  ∧ (Job.expand_globs globDirAQ (Job.expand_globs globDirAQ jobLsStar)).args
      = ["ls", "a?", "ab", "ab"]
  ∧ (Job.expand_globs globDirAQ (Job.expand_globs globDirAQ jobLsStar)).args
      ≠ (Job.expand_globs globDirAQ jobLsStar).args := by
  refine ⟨by decide, by decide, by decide⟩

/-- Amended C7: re-running `expand_globs` is a no-op whenever the first
expansion produced only metacharacter-free arguments; an expanded argument
can itself contain a metacharacter, and then a second run may expand it
again. -/
theorem expand_globs_idempotent_amended (g : GlobFn) (j : Job)
    (h : ∀ arg ∈ (Job.expand_globs g j).args, containsGlobChar arg = false) :
    Job.expand_globs g (Job.expand_globs g j) = Job.expand_globs g j := by
  have hargs : ∀ args : List String,
      (∀ arg ∈ args, containsGlobChar arg = false) →
      expandGlobsArgs g args = args := by
    intro args
    induction args with
    | nil => intro _; rfl
    | cons a rest ih =>
        intro hall
        show expandGlobsArg g a ++ expandGlobsArgs g rest = a :: rest
        rw [expandGlobsArg_no_meta g a (hall a (by simp)),
          ih (fun arg hm => hall arg (by simp [hm]))]
        rfl
  show ({ Job.expand_globs g j with
      args := expandGlobsArgs g (Job.expand_globs g j).args } : Job)
    = Job.expand_globs g j
  rw [hargs (Job.expand_globs g j).args h]

/-- Witness for the amended C7: after expanding against a directory holding
only `a.txt`, a second expansion changes nothing. -/
theorem expand_globs_idempotent_amended_witness :
    Job.expand_globs globStar (Job.expand_globs globStar jobLsStar)
      = Job.expand_globs globStar jobLsStar :=
  expand_globs_idempotent_amended globStar jobLsStar (by decide)

end Ion
